import Mathlib

/-!
Verification of the dictionary-upload tool (src/utils/kg_dictionary.py)
and of the whitespace-normalization utility (src/utils/fix_whitespaces.py).

Python strings are embedded as `List Char`.  Pure helpers of the scripts
become Lean functions translated line by line from the source; the
`main` loop of kg_dictionary.py becomes a trace-producing function over
per-file oracles, so that ordering and abort behaviour can be stated.
-/

namespace BerezinDicts

/-- The set of characters stripped by Python `str.strip()` and matched by
the regexp class `\s` (ASCII and the common Unicode whitespace). -/
def isPySpace (c : Char) : Bool :=
  c == ' ' || c == '\t' || c == '\n' || c == '\r' ||
  c == Char.ofNat 11 || c == Char.ofNat 12 ||
  c == Char.ofNat 28 || c == Char.ofNat 29 || c == Char.ofNat 30 ||
  c == Char.ofNat 31 || c == Char.ofNat 133 || c == Char.ofNat 160 ||
  c == Char.ofNat 0x1680 || (Char.ofNat 0x2000 ≤ c && c ≤ Char.ofNat 0x200A) ||
  c == Char.ofNat 0x2028 || c == Char.ofNat 0x2029 || c == Char.ofNat 0x202F ||
  c == Char.ofNat 0x205F || c == Char.ofNat 0x3000

/-- Python `str.strip()`: drop whitespace from both ends. -/
def pyStrip (l : List Char) : List Char :=
  ((l.dropWhile isPySpace).reverse.dropWhile isPySpace).reverse

/-- Worker for `squeeze`: the flag records whether we are inside a
whitespace run whose replacement space was already emitted. -/
def squeezeF : Bool → List Char → List Char
  | _, [] => []
  | inRun, c :: rest =>
    if isPySpace c then
      if inRun then squeezeF true rest else ' ' :: squeezeF true rest
    else c :: squeezeF false rest

/-- Python regexp substitution of every whitespace run by a single space,
as in the source line of fix_whitespaces.py. -/
def squeeze (l : List Char) : List Char := squeezeF false l

/-- `normalize` of src/utils/fix_whitespaces.py: substitute every
whitespace run of the stripped line by one space and add a newline. -/
def normalize (line : List Char) : List Char :=
  squeeze (pyStrip line) ++ ['\n']

/-- `prepare_as_text` of kg_dictionary.py: append a dot unless the text
already ends with one. -/
def prepare_as_text (text : List Char) : List Char :=
  if text.getLast? = some '.' then text else text ++ ['.']

/-- `load_text` of kg_dictionary.py applied to the raw file contents:
read the file and strip the result. -/
def load_text (raw : List Char) : List Char := pyStrip raw

/-- The apostrophe character, written by code point to keep string
literals free of quoting issues. -/
def sq : Char := Char.ofNat 39

/-- Boolean prefix test on character lists. -/
def isPre : List Char → List Char → Bool
  | [], _ => true
  | _ :: _, [] => false
  | a :: as2, b :: bs2 => a == b && isPre as2 bs2

/-- The literal part of the regexp in `check_csrf_token`:
the text name=<q>csrftoken<q> value=<q> with <q> the apostrophe. -/
def csrfLit : List Char :=
  ['n', 'a', 'm', 'e', '='] ++ sq :: ['c', 's', 'r', 'f', 't', 'o', 'k', 'e', 'n'] ++
    sq :: [' ', 'v', 'a', 'l', 'u', 'e', '='] ++ [sq]

/-- The first-match semantics of the `re.search` call in
`check_csrf_token`: at the leftmost position where the literal part
matches, the group is the maximal run of non-apostrophe characters,
which must be non-empty and followed by a closing apostrophe; otherwise
the scan moves one character to the right. -/
def csrfSearchAux : List Char → Option (List Char)
  | [] => none
  | c :: rest =>
    if isPre csrfLit (c :: rest) then
      let after := (c :: rest).drop csrfLit.length
      let run := after.takeWhile (fun ch => !(ch == sq))
      if run.length != 0 && (after.drop run.length).length != 0 then some run
      else csrfSearchAux rest
    else csrfSearchAux rest

/-- `check_csrf_token` of kg_dictionary.py: the truth value of the
regexp search (the captured group is discarded). -/
def check_csrf_token (page : List Char) : Bool :=
  (csrfSearchAux page).isSome

/-- `form_fields` of kg_dictionary.py: the multipart fields posted for a
dictionary, in source order.  The content has `prepare_as_text` applied
first, exactly as in the source. -/
def form_fields (content nameV descV : List Char) : List (String × List Char) :=
  let content2 := prepare_as_text content
  [("name", nameV), ("description", descV),
   ("public", "public".toList), ("type", "texts".toList),
   ("words", content2), ("info", []), ("url", []),
   ("submit", "Добавить".toList)]

/-- The literal part of the error regexp in `upload_dictionary`. -/
def errLit : List Char :=
  ['c', 'l', 'a', 's', 's', '=', 'e', 'r', 'r', 'o', 'r', '>']

/-- The closing literal of the error regexp. -/
def divClose : List Char := ['<', '/', 'd', 'i', 'v', '>']

/-- Greedy group of the error regexp at a fixed start: the largest
newline-free non-empty prefix of `after` followed by the closing
literal. -/
def findErrAt (after : List Char) : Option (List Char) :=
  (((List.range (after.length + 1)).filter
    (fun k => decide (1 ≤ k) && (after.take k).all (fun ch => !(ch == '\n')) &&
      isPre divClose (after.drop k))).getLast?).map (fun k => after.take k)

/-- First-match semantics of the `re.search` call in
`upload_dictionary`: leftmost start position of the error literal at
which the greedy group closes. -/
def errSearchAux : List Char → Option (List Char)
  | [] => none
  | c :: rest =>
    if isPre errLit (c :: rest) then
      match findErrAt ((c :: rest).drop errLit.length) with
      | some g => some g
      | none => errSearchAux rest
    else errSearchAux rest

/-- Outcome of one upload, as logged by `upload_dictionary`. -/
inductive UploadOutcome where
  | Created (url : String)
  | Failed (message : List Char)
deriving DecidableEq

/-- The response classification of `upload_dictionary`: a matching
error div yields a logged failure with the captured text, otherwise a
logged creation with the response url. -/
def classify_response (body : List Char) (url : String) : UploadOutcome :=
  match errSearchAux body with
  | some msg => UploadOutcome.Failed msg
  | none => UploadOutcome.Created url

/-- The literal part of the regexp in `strip_filename_headers`. -/
def litFN : List Char :=
  ['f', 'i', 'l', 'e', 'n', 'a', 'm', 'e', '=', '"']

/-- Lowercase ASCII letter, the character class of that regexp. -/
def isLowerAZ (c : Char) : Bool := decide ('a' ≤ c) && decide (c ≤ 'z')

/-- Length of the regexp match of `strip_filename_headers` at the head
of `l`, when there is one: the literal, a non-empty maximal lowercase
run, and a closing double quote. -/
def stripMatch (l : List Char) : Option Nat :=
  if isPre litFN l then
    if 0 < ((l.drop litFN.length).takeWhile isLowerAZ).length then
      if isPre ['"']
          ((l.drop litFN.length).drop
            ((l.drop litFN.length).takeWhile isLowerAZ).length) then
        some (litFN.length + ((l.drop litFN.length).takeWhile isLowerAZ).length + 1)
      else none
    else none
  else none

/-- The global-substitution scan of `re.sub` for that pattern: walk the
string once, removing each leftmost non-overlapping match.  The fuel
argument only serves structural recursion; `stripFN` supplies enough
for the whole string. -/
def stripGo : Nat → List Char → List Char
  | 0, l => l
  | _ + 1, [] => []
  | fuel + 1, c :: rest =>
    match stripMatch (c :: rest) with
    | some n => stripGo fuel ((c :: rest).drop n)
    | none => c :: stripGo fuel rest

/-- The body rewriting of `strip_filename_headers`. -/
def stripFN (l : List Char) : List Char := stripGo l.length l

/-- Byte length of the UTF-8 encoding, as produced by `encode()`. -/
def utf8Len (l : List Char) : Nat := l.foldr (fun c n => c.utf8Size + n) 0

/-- The parts of a prepared HTTP request that
`strip_filename_headers` touches. -/
structure PreparedRequest where
  body : List Char
  contentLength : Nat
deriving DecidableEq

/-- `strip_filename_headers` of kg_dictionary.py: substitute the
filename attributes out of the body, then recompute the content length
from the new body. -/
def strip_filename_headers (p : PreparedRequest) : PreparedRequest :=
  let b := stripFN p.body
  { body := b, contentLength := utf8Len b }

/-- The pattern `pat` occurs somewhere in `l`. -/
def occursIn (pat l : List Char) : Prop := ∃ s t, l = s ++ pat ++ t

/-- A suffix is well-formed for `strip_filename_headers` when, if it
starts with the filename literal, a full match starts there and the
text after the match is empty or starts with a carriage return — the
shape the multipart encoder emits for plain text fields. -/
def goodSuffix (u : List Char) : Bool :=
  if isPre litFN u then
    match stripMatch u with
    | some n =>
      match u.drop n with
      | [] => true
      | c :: _ => c == '\r'
    | none => false
  else true

/-- Every occurrence of the filename literal in the body begins an
encoder-emitted attribute. -/
def goodBody (l : List Char) : Bool := l.tails.all goodSuffix

/-- Propositional form of `goodBody`, closed under taking suffixes. -/
def GoodP (l : List Char) : Prop := ∀ u, u <:+ l → goodSuffix u = true

/-- Network-visible events of the `main` loop, tagged with the
zero-based position of the file being processed.  `get` is the GET of
the submission page in `can_i_haz_login`, `build` is the successful
construction of the form data in `create_post_data`, `post` is the
POST in `upload_dictionary`. -/
inductive Event where
  | get (i : Nat)
  | build (i : Nat)
  | post (i : Nat)
deriving DecidableEq

/-- How a run of `main` ends: normally, or by one of its three
process-terminating failures. -/
inductive RunResult where
  | done
  | cookieError
  | exitLogin (i : Nat)
  | exitMetadata (i : Nat)
deriving DecidableEq

/-- The per-file loop of `main`.  `csrf i` tells whether the page
fetched for file `i` carries the token (`check_csrf_token`); the list
holds, per file, whether its descriptions.cfg entry exists.  A failed
token check calls `exit` inside `can_i_haz_login`; a missing metadata
entry calls `exit` inside `get_metadata`, after the GET but before the
form is built; both terminate the process. -/
def runFiles (csrf : Nat → Bool) : List Bool → Nat → List Event × RunResult
  | [], _ => ([], RunResult.done)
  | m :: rest, i =>
    if csrf i then
      if m then
        let r := runFiles csrf rest (i + 1)
        (Event.get i :: Event.build i :: Event.post i :: r.1, r.2)
      else ([Event.get i], RunResult.exitMetadata i)
    else ([Event.get i], RunResult.exitLogin i)

/-- `main` of kg_dictionary.py: load the cookie jar (an unreadable or
malformed file raises before any network call), then run the per-file
loop. -/
def runMain (cookieOk : Bool) (csrf : Nat → Bool) (files : List Bool) :
    List Event × RunResult :=
  if cookieOk then runFiles csrf files 0 else ([], RunResult.cookieError)

/-- The always-valid csrf oracle. -/
def allTrue : Nat → Bool := fun _ => true

/-- A csrf oracle whose check fails exactly for the second file. -/
def csrfFailAt1 : Nat → Bool := fun n => !(n == 1)

/-- Position of an event in the canonical per-file order. -/
def evKey : Event → Nat
  | Event.get i => 3 * i
  | Event.build i => 3 * i + 1
  | Event.post i => 3 * i + 2

/-- The full trace of `n` successful uploads starting at file `i`. -/
def canonicalFrom (i n : Nat) : List Event :=
  (List.range' i n).flatMap (fun k => [Event.get k, Event.build k, Event.post k])

-- Concrete inputs used by counterexamples and witnesses.

/-- A form page carrying the token value ABC123. -/
def csrfPageA : List Char :=
  ['<', 'i', 'n', 'p', 'u', 't', ' '] ++ csrfLit ++
    ['A', 'B', 'C', '1', '2', '3'] ++ sq :: [' ', '/', '>']

/-- A form page carrying the token value XYZ42. -/
def csrfPageB : List Char :=
  ['<', 'i', 'n', 'p', 'u', 't', ' '] ++ csrfLit ++
    ['X', 'Y', 'Z', '4', '2'] ++ sq :: [' ', '/', '>']

/-- A form page carrying two token attributes, ABC123 first. -/
def csrfPageFirst : List Char :=
  csrfPageA ++ [' '] ++ csrfLit ++ ['L', 'A', 'T', 'E', 'R', '9'] ++ [sq]

/-- A page with no csrftoken attribute. -/
def csrfPageNone : List Char :=
  ['<', 'h', 't', 'm', 'l', '>', 'n', 'o', ' ', 't', 'o', 'k', 'e', 'n',
   '<', '/', 'h', 't', 'm', 'l', '>']

/-- A response body containing an error div. -/
def errBody : List Char :=
  "<html><div class=error>some text</div>".toList ++ '\n' :: "</html>".toList

/-- A response body without the error marker. -/
def okBody : List Char := "<html>ok</html>".toList

/-- A multipart body fragment as the encoder emits it for a plain text
field, with a filename attribute. -/
def c7body : List Char :=
  "Content-Disposition: form-data; name=\"words\"; filename=\"content\"".toList ++
    '\r' :: '\n' :: '\r' :: '\n' :: "hello.".toList ++ ['\r', '\n']

/-- A prepared request for `c7body` whose content length predates the
stripping. -/
def c7req : PreparedRequest := ⟨c7body, 999⟩

/-- An example line for the whitespace-normalization witness. -/
def exLine : List Char := ['a', ' ', ' ', 'b', '\t', 'c', ' ']

/-- An example raw file content for the text-termination witness. -/
def exC4raw : List Char := [' ', 'h', 'i', ' ']

-- Basic facts about `pyStrip`.

theorem pyStrip_head (l : List Char) (c : Char)
    (h : (pyStrip l).head? = some c) : isPySpace c = false := by
  unfold pyStrip at h
  rw [List.head?_reverse] at h
  obtain ⟨s, hs⟩ :=
    List.dropWhile_suffix (l := (l.dropWhile isPySpace).reverse) isPySpace
  have hz : ((l.dropWhile isPySpace).reverse.dropWhile isPySpace) ≠ [] := by
    intro hn; rw [hn] at h; simp at h
  have h2 : (l.dropWhile isPySpace).reverse.getLast? = some c := by
    rw [← hs, List.getLast?_append_of_ne_nil _ hz, h]
  rw [List.getLast?_reverse] at h2
  have h3 := List.head?_dropWhile_not isPySpace l
  simp [h2] at h3
  exact h3

theorem pyStrip_getLast (l : List Char) (c : Char)
    (h : (pyStrip l).getLast? = some c) : isPySpace c = false := by
  unfold pyStrip at h
  rw [List.getLast?_reverse] at h
  have h3 := List.head?_dropWhile_not isPySpace (l.dropWhile isPySpace).reverse
  simp [h] at h3
  exact h3

-- Basic facts about `squeezeF`.

theorem squeezeF_space_mem (l : List Char) :
    ∀ b c, c ∈ squeezeF b l → isPySpace c = true → c = ' ' := by
  induction l with
  | nil => intro b c h _; simp [squeezeF] at h
  | cons a t ih =>
    intro b c h hsp
    by_cases ha : isPySpace a
    · cases b with
      | true =>
        rw [squeezeF, if_pos ha, if_pos rfl] at h
        exact ih true c h hsp
      | false =>
        rw [squeezeF, if_pos ha] at h
        simp only [Bool.false_eq_true, if_false] at h
        rcases List.mem_cons.mp h with h1 | h1
        · exact h1
        · exact ih true c h1 hsp
    · rw [squeezeF, if_neg ha] at h
      rcases List.mem_cons.mp h with h1 | h1
      · rw [h1] at hsp; rw [hsp] at ha; exact absurd rfl ha
      · exact ih false c h1 hsp

theorem squeezeF_true_head (l : List Char) (c : Char)
    (h : (squeezeF true l).head? = some c) : isPySpace c = false := by
  induction l with
  | nil => simp [squeezeF] at h
  | cons a t ih =>
    by_cases ha : isPySpace a
    · rw [squeezeF, if_pos ha, if_pos rfl] at h
      exact ih h
    · rw [squeezeF, if_neg ha] at h
      simp at h
      rw [← h]
      simpa using ha

theorem squeezeF_head_keep (l : List Char) (c : Char) (b : Bool)
    (hh : l.head? = some c) (hc : isPySpace c = false) :
    (squeezeF b l).head? = some c := by
  cases l with
  | nil => simp at hh
  | cons a t =>
    simp at hh
    rw [← hh] at hc
    rw [squeezeF, if_neg (by simp [hc])]
    simp [hh]

theorem squeezeF_true_false_of_head (l : List Char)
    (h : ∀ c, l.head? = some c → isPySpace c = false) :
    squeezeF true l = squeezeF false l := by
  cases l with
  | nil => rfl
  | cons a t =>
    have ha : isPySpace a = false := h a (by simp)
    rw [squeezeF, squeezeF, if_neg (by simp [ha]), if_neg (by simp [ha])]

theorem squeezeF_chain (l : List Char) (b : Bool) :
    List.Chain' (fun x y => isPySpace x = false ∨ isPySpace y = false)
      (squeezeF b l) := by
  induction l generalizing b with
  | nil => simp [squeezeF]
  | cons a t ih =>
    by_cases ha : isPySpace a
    · cases b with
      | true =>
        rw [squeezeF, if_pos ha, if_pos rfl]
        exact ih true
      | false =>
        rw [squeezeF, if_pos ha]
        simp only [Bool.false_eq_true, if_false]
        rw [List.chain'_cons']
        refine ⟨?_, ih true⟩
        intro y hy
        right
        exact squeezeF_true_head t y hy
    · rw [squeezeF, if_neg ha]
      rw [List.chain'_cons']
      refine ⟨?_, ih false⟩
      intro y _
      left
      simpa using ha

theorem squeezeF_getLast (l : List Char) :
    ∀ b c, l.getLast? = some c → isPySpace c = false →
      (squeezeF b l).getLast? = some c := by
  induction l with
  | nil => intro b c h _; simp at h
  | cons a t ih =>
    intro b c h hc
    cases t with
    | nil =>
      simp at h
      rw [← h] at hc
      rw [squeezeF, if_neg (by simp [hc])]
      simp [squeezeF, h]
    | cons a2 t2 =>
      have ht : (a2 :: t2).getLast? = some c := by
        rw [← h]
        exact (List.getLast?_append_of_ne_nil [a] (by simp)).symm
      have hne : ∀ b2, squeezeF b2 (a2 :: t2) ≠ [] := by
        intro b2 hn
        have := ih b2 c ht hc
        rw [hn] at this
        simp at this
      by_cases ha : isPySpace a
      · cases b with
        | true =>
          rw [squeezeF, if_pos ha, if_pos rfl]
          exact ih true c ht hc
        | false =>
          rw [squeezeF, if_pos ha]
          simp only [Bool.false_eq_true, if_false]
          exact (List.getLast?_append_of_ne_nil [' '] (hne true)).trans
            (ih true c ht hc)
      · rw [squeezeF, if_neg ha]
        exact (List.getLast?_append_of_ne_nil [a] (hne false)).trans
          (ih false c ht hc)

theorem squeezeF_fixed (l : List Char)
    (hsp : ∀ c ∈ l, isPySpace c = true → c = ' ')
    (hch : List.Chain' (fun x y => isPySpace x = false ∨ isPySpace y = false) l) :
    squeezeF false l = l := by
  induction l with
  | nil => rfl
  | cons a t ih =>
    rw [List.chain'_cons'] at hch
    by_cases ha : isPySpace a
    · have ha' : a = ' ' := hsp a (by simp) (by simpa using ha)
      rw [squeezeF, if_pos ha]
      simp only [Bool.false_eq_true, if_false]
      have hhead : ∀ c, t.head? = some c → isPySpace c = false := by
        intro c hc
        rcases hch.1 c hc with h1 | h1
        · simp [ha] at h1
        · exact h1
      rw [squeezeF_true_false_of_head t hhead]
      rw [ih (fun c hc => hsp c (List.mem_cons_of_mem a hc)) hch.2]
      rw [ha']
    · rw [squeezeF, if_neg ha]
      rw [ih (fun c hc => hsp c (List.mem_cons_of_mem a hc)) hch.2]

theorem dropWhile_eq_self_of_head (p : Char → Bool) (l : List Char)
    (h : ∀ c, l.head? = some c → p c = false) : l.dropWhile p = l := by
  cases l with
  | nil => rfl
  | cons a t =>
    rw [List.dropWhile_cons, if_neg]
    simp [h a rfl]

theorem pyStrip_append_newline (core : List Char)
    (hh : ∀ c, core.head? = some c → isPySpace c = false)
    (hl : ∀ c, core.getLast? = some c → isPySpace c = false) :
    pyStrip (core ++ ['\n']) = core := by
  cases core with
  | nil => decide
  | cons a t =>
    have ha : isPySpace a = false := hh a rfl
    unfold pyStrip
    rw [List.cons_append, List.dropWhile_cons, if_neg (by simp [ha])]
    rw [show (a :: (t ++ ['\n'])).reverse = '\n' :: (a :: t).reverse by simp]
    rw [List.dropWhile_cons, if_pos (by decide)]
    rw [dropWhile_eq_self_of_head isPySpace (a :: t).reverse ?hd]
    · simp
    case hd =>
      intro c hc
      rw [List.head?_reverse] at hc
      exact hl c hc

/-- C10: the per-line transform `normalize` of fix_whitespaces.py is
idempotent; its output has no two adjacent whitespace characters (so no
whitespace run of length two or more); the part before the final
newline neither starts nor ends with a whitespace character; and the
output ends with exactly one newline: its last character is a newline
and no newline occurs in the part before it. -/
theorem claim_c10_normalize (line : List Char) :
    normalize (normalize line) = normalize line ∧
    List.Chain' (fun x y => isPySpace x = false ∨ isPySpace y = false)
      (normalize line) ∧
    (squeeze (pyStrip line)).head?.all (fun c => !isPySpace c) = true ∧
    (squeeze (pyStrip line)).getLast?.all (fun c => !isPySpace c) = true ∧
    (normalize line).getLast? = some '\n' ∧
    (squeeze (pyStrip line)).all (fun c => !(c == '\n')) = true := by
  have hhead : ∀ c, (squeeze (pyStrip line)).head? = some c →
      isPySpace c = false := by
    intro c h
    cases hp : pyStrip line with
    | nil => rw [hp] at h; simp [squeeze, squeezeF] at h
    | cons a t =>
      have ha : isPySpace a = false := pyStrip_head line a (by rw [hp]; rfl)
      rw [hp] at h
      have h2 := squeezeF_head_keep (a :: t) a false rfl ha
      rw [squeeze] at h
      rw [h2] at h
      simp at h
      rw [← h]
      exact ha
  have hlast : ∀ c, (squeeze (pyStrip line)).getLast? = some c →
      isPySpace c = false := by
    intro c h
    cases hp : pyStrip line with
    | nil => rw [hp] at h; simp [squeeze, squeezeF] at h
    | cons a t =>
      cases hgl : (a :: t).getLast? with
      | none => simp at hgl
      | some d =>
        have hdns : isPySpace d = false := by
          refine pyStrip_getLast line d ?_
          rw [hp]; exact hgl
        have h2 := squeezeF_getLast (a :: t) false d hgl hdns
        rw [hp] at h
        rw [squeeze] at h
        rw [h2] at h
        simp at h
        rw [← h]
        exact hdns
  have hsp' : ∀ c ∈ squeeze (pyStrip line), isPySpace c = true → c = ' ' :=
    fun c hc => squeezeF_space_mem (pyStrip line) false c hc
  have hchcore := squeezeF_chain (pyStrip line) false
  refine ⟨?_, ?_, ?_, ?_, by simp [normalize], ?_⟩
  · have hps := pyStrip_append_newline (squeeze (pyStrip line)) hhead hlast
    have hsq := squeezeF_fixed (squeeze (pyStrip line)) hsp' hchcore
    show squeeze (pyStrip (squeeze (pyStrip line) ++ ['\n'])) ++ ['\n'] =
      squeeze (pyStrip line) ++ ['\n']
    rw [hps]
    show squeezeF false (squeeze (pyStrip line)) ++ ['\n'] = _
    rw [hsq]
  · rw [normalize, List.chain'_append]
    refine ⟨hchcore, by simp, ?_⟩
    intro x hx y _
    left
    exact hlast x hx
  · cases hh : (squeeze (pyStrip line)).head? with
    | none => rfl
    | some c => simp [Option.all_some, hhead c hh]
  · cases hh : (squeeze (pyStrip line)).getLast? with
    | none => rfl
    | some c => simp [Option.all_some, hlast c hh]
  · rw [List.all_eq_true]
    intro c hc
    by_cases hcn : c = '\n'
    · have : c = ' ' := hsp' c hc (by rw [hcn]; decide)
      rw [hcn] at this
      exact absurd this (by decide)
    · simp [hcn]

/-- C4: on a raw text content whose stripped form does not already end
with the terminator dot, the content pipeline of `create_post_data`
(`load_text` strips both ends, `form_fields` applies
`prepare_as_text`) yields exactly the stripped content with one dot
appended; the stripped part neither starts nor ends with whitespace;
and `prepare_as_text` is idempotent, so a second application never
doubles the terminator. -/
theorem claim_c4_text_terminator (raw : List Char)
    (h : (pyStrip raw).getLast? ≠ some '.') :
    prepare_as_text (load_text raw) = pyStrip raw ++ ['.'] ∧
    (prepare_as_text (load_text raw)).getLast? = some '.' ∧
    (pyStrip raw).head?.all (fun c => !isPySpace c) = true ∧
    (pyStrip raw).getLast?.all (fun c => !isPySpace c) = true ∧
    (∀ t : List Char, prepare_as_text (prepare_as_text t) = prepare_as_text t) := by
  have h1 : prepare_as_text (load_text raw) = pyStrip raw ++ ['.'] := by
    unfold load_text prepare_as_text
    rw [if_neg h]
  refine ⟨h1, by rw [h1]; simp, ?_, ?_, ?_⟩
  · cases hh : (pyStrip raw).head? with
    | none => rfl
    | some c => simp [Option.all_some, pyStrip_head raw c hh]
  · cases hh : (pyStrip raw).getLast? with
    | none => rfl
    | some c => simp [Option.all_some, pyStrip_getLast raw c hh]
  · intro t
    by_cases ht : t.getLast? = some '.'
    · have he : prepare_as_text t = t := by unfold prepare_as_text; rw [if_pos ht]
      rw [he, he]
    · have he : prepare_as_text t = t ++ ['.'] := by
        unfold prepare_as_text; rw [if_neg ht]
      have h2 : (t ++ ['.']).getLast? = some '.' := by simp
      rw [he]
      unfold prepare_as_text
      rw [if_pos h2]

theorem claim_c4_text_terminator_witness :
    (pyStrip exC4raw).getLast? ≠ some '.' ∧
    prepare_as_text (load_text exC4raw) = pyStrip exC4raw ++ ['.'] :=
  ⟨by decide, (claim_c4_text_terminator exC4raw (by decide)).1⟩

-- Facts about the `main` loop trace.

theorem runFiles_key_lb (csrf : Nat → Bool) :
    ∀ (files : List Bool) (i : Nat) (e : Event),
      e ∈ (runFiles csrf files i).1 → 3 * i ≤ evKey e := by
  intro files
  induction files with
  | nil => intro i e h; simp [runFiles] at h
  | cons m rest ih =>
    intro i e h
    by_cases hc : csrf i = true
    · cases m
      · simp [runFiles, hc] at h
        rw [h, evKey]
      · simp [runFiles, hc] at h
        rcases h with h | h | h | h
        · rw [h, evKey]
        · rw [h, evKey]; omega
        · rw [h, evKey]; omega
        · have := ih (i + 1) e h
          omega
    · simp [runFiles, hc] at h
      rw [h, evKey]

theorem runFiles_pairwise (csrf : Nat → Bool) :
    ∀ (files : List Bool) (i : Nat),
      List.Pairwise (fun a b => evKey a < evKey b) (runFiles csrf files i).1 := by
  intro files
  induction files with
  | nil => intro i; simp [runFiles]
  | cons m rest ih =>
    intro i
    by_cases hc : csrf i = true
    · cases m
      · simp [runFiles, hc]
      · simp only [runFiles, hc, if_true]
        have hb := runFiles_key_lb csrf rest (i + 1)
        refine List.Pairwise.cons ?_ (List.Pairwise.cons ?_
          (List.Pairwise.cons ?_ (ih (i + 1))))
        · intro e he
          rcases List.mem_cons.mp he with h | h
          · rw [h, evKey, evKey]; omega
          · rcases List.mem_cons.mp h with h2 | h2
            · rw [h2, evKey, evKey]; omega
            · have := hb e h2
              rw [evKey]; omega
        · intro e he
          rcases List.mem_cons.mp he with h | h
          · rw [h, evKey, evKey]; omega
          · have := hb e h
            rw [evKey]; omega
        · intro e he
          have := hb e he
          rw [evKey]; omega
    · simp [runFiles, hc]

theorem runFiles_post_get (csrf : Nat → Bool) :
    ∀ (files : List Bool) (i j : Nat),
      Event.post j ∈ (runFiles csrf files i).1 →
      Event.get j ∈ (runFiles csrf files i).1 := by
  intro files
  induction files with
  | nil => intro i j h; simp [runFiles] at h
  | cons m rest ih =>
    intro i j h
    by_cases hc : csrf i = true
    · cases m
      · simp [runFiles, hc] at h
      · simp only [runFiles, hc, if_true] at h ⊢
        rcases List.mem_cons.mp h with h1 | h1
        · exact absurd h1 (by simp)
        rcases List.mem_cons.mp h1 with h2 | h2
        · exact absurd h2 (by simp)
        rcases List.mem_cons.mp h2 with h3 | h3
        · have hj : j = i := by
            cases h3; rfl
          rw [hj]
          exact List.mem_cons_self _ _
        · have := ih (i + 1) j h3
          exact List.mem_cons_of_mem _ (List.mem_cons_of_mem _
            (List.mem_cons_of_mem _ this))
    · simp [runFiles, hc] at h

theorem runFiles_mem_csrf (csrf : Nat → Bool) :
    ∀ (files : List Bool) (i j : Nat),
      (Event.build j ∈ (runFiles csrf files i).1 ∨
        Event.post j ∈ (runFiles csrf files i).1) →
      ∀ k, i ≤ k → k ≤ j → csrf k = true := by
  intro files
  induction files with
  | nil => intro i j h; simp [runFiles] at h
  | cons m rest ih =>
    intro i j h k hik hkj
    by_cases hc : csrf i = true
    · cases m
      · rcases h with h | h <;> simp [runFiles, hc] at h
      · simp only [runFiles, hc, if_true] at h
        by_cases hk : k = i
        · rw [hk]; exact hc
        · have hk2 : i + 1 ≤ k := by omega
          have hji : j ≠ i := by
            intro hji
            rw [hji] at hkj
            omega
          refine ih (i + 1) j ?_ k hk2 hkj
          rcases h with h | h
          · rcases List.mem_cons.mp h with h1 | h1
            · exact absurd h1 (by simp)
            rcases List.mem_cons.mp h1 with h2 | h2
            · exact absurd h2 (by simp [hji])
            rcases List.mem_cons.mp h2 with h3 | h3
            · exact absurd h3 (by simp)
            · exact Or.inl h3
          · rcases List.mem_cons.mp h with h1 | h1
            · exact absurd h1 (by simp)
            rcases List.mem_cons.mp h1 with h2 | h2
            · exact absurd h2 (by simp)
            rcases List.mem_cons.mp h2 with h3 | h3
            · exact absurd h3 (by simp [hji])
            · exact Or.inr h3
    · rcases h with h | h <;> simp [runFiles, hc] at h


theorem runFiles_get_csrf (csrf : Nat → Bool) :
    ∀ (files : List Bool) (i j : Nat),
      Event.get j ∈ (runFiles csrf files i).1 →
      ∀ k, i ≤ k → k < j → csrf k = true := by
  intro files
  induction files with
  | nil => intro i j h; simp [runFiles] at h
  | cons m rest ih =>
    intro i j h k hik hkj
    by_cases hc : csrf i = true
    · cases m
      · simp [runFiles, hc] at h
        cases h
        omega
      · simp only [runFiles, hc, if_true] at h
        by_cases hk : k = i
        · rw [hk]; exact hc
        · have hk2 : i + 1 ≤ k := by omega
          rcases List.mem_cons.mp h with h1 | h1
          · cases h1
            omega
          rcases List.mem_cons.mp h1 with h2 | h2
          · exact absurd h2 (by simp)
          rcases List.mem_cons.mp h2 with h3 | h3
          · exact absurd h3 (by simp)
          · exact ih (i + 1) j h3 k hk2 hkj
    · simp [runFiles, hc] at h
      cases h
      omega

theorem canonicalFrom_key (n : Nat) :
    ∀ (i : Nat) (e : Event), e ∈ canonicalFrom i n →
      3 * i ≤ evKey e ∧ evKey e < 3 * (i + n) := by
  induction n with
  | zero => intro i e he; simp [canonicalFrom] at he
  | succ n ih =>
    intro i e he
    rw [canonicalFrom, List.range'_succ, List.flatMap_cons] at he
    rcases List.mem_append.mp he with h1 | h1
    · rcases List.mem_cons.mp h1 with h | h
      · rw [h, evKey]; omega
      rcases List.mem_cons.mp h with h2 | h2
      · rw [h2, evKey]; omega
      rcases List.mem_cons.mp h2 with h3 | h3
      · rw [h3, evKey]; omega
      · simp at h3
    · have := ih (i + 1) e h1
      omega

theorem runFiles_meta_abort (csrf : Nat → Bool) :
    ∀ (pre : List Bool) (post : List Bool) (i : Nat),
      (∀ k, i ≤ k → k ≤ i + pre.length → csrf k = true) →
      (∀ m ∈ pre, m = true) →
      runFiles csrf (pre ++ false :: post) i =
        (canonicalFrom i pre.length ++ [Event.get (i + pre.length)],
         RunResult.exitMetadata (i + pre.length)) := by
  intro pre
  induction pre with
  | nil =>
    intro post i hcs _
    have hc : csrf i = true := hcs i (le_refl i) (Nat.le_add_right i 0)
    simp [runFiles, hc, canonicalFrom]
  | cons m pre' ih =>
    intro post i hcs hpre
    have hm : m = true := hpre m (List.mem_cons_self m pre')
    have hc : csrf i = true := hcs i (le_refl i) (Nat.le_add_right i _)
    subst hm
    have hrec := ih post (i + 1)
      (fun k hk1 hk2 => hcs k (by omega) (by simp at hk2 ⊢; omega))
      (fun x hx => hpre x (List.mem_cons_of_mem true hx))
    show runFiles csrf (true :: (pre' ++ false :: post)) i = _
    simp only [runFiles, hc, if_true]
    rw [hrec]
    have harith : i + 1 + pre'.length = i + (true :: pre').length := by
      simp; omega
    rw [harith]
    refine Prod.ext ?_ rfl
    show Event.get i :: Event.build i :: Event.post i ::
        (canonicalFrom (i + 1) pre'.length ++ [Event.get (i + (true :: pre').length)]) =
      canonicalFrom i (true :: pre').length ++ [Event.get (i + (true :: pre').length)]
    have hcan : canonicalFrom i (true :: pre').length =
        Event.get i :: Event.build i :: Event.post i ::
          canonicalFrom (i + 1) pre'.length := by
      show canonicalFrom i (pre'.length + 1) = _
      rw [canonicalFrom, List.range'_succ, List.flatMap_cons]
      rfl
    rw [hcan]
    simp

/-- C1 is false on the code: with three files where the second file's
descriptions.cfg entry is missing, `get_metadata` calls `exit`, so the
process terminates after the GET for file 2.  File 1 is fully
processed, but no GET, form build, or POST is ever attempted for file
3, contradicting the claim that every file after the affected one is
still processed. -/
theorem claim_c1_counterexample :
    runMain true allTrue [true, false, true] =
      ([Event.get 0, Event.build 0, Event.post 0, Event.get 1],
       RunResult.exitMetadata 1) ∧
    Event.get 2 ∉ (runMain true allTrue [true, false, true]).1 ∧
    Event.build 2 ∉ (runMain true allTrue [true, false, true]).1 ∧
    Event.post 2 ∉ (runMain true allTrue [true, false, true]).1 := by
  refine ⟨by decide, by decide, by decide, by decide⟩

/-- C1 amended: a missing descriptor entry ends the whole process, not
just the current file.  Every file before the affected one is fully
processed (GET, form build and POST all happen, in order); the affected
file performs its GET and then exits with the metadata failure; no
event of any later file ever occurs. -/
theorem claim_c1_metadata_abort (csrf : Nat → Bool) (pre post : List Bool)
    (hcs : ∀ k, k ≤ pre.length → csrf k = true)
    (hpre : ∀ m ∈ pre, m = true) :
    runMain true csrf (pre ++ false :: post) =
      (canonicalFrom 0 pre.length ++ [Event.get pre.length],
       RunResult.exitMetadata pre.length) ∧
    Event.post pre.length ∉ (runMain true csrf (pre ++ false :: post)).1 ∧
    Event.build pre.length ∉ (runMain true csrf (pre ++ false :: post)).1 ∧
    ∀ j, pre.length < j →
      Event.get j ∉ (runMain true csrf (pre ++ false :: post)).1 := by
  have heq : runMain true csrf (pre ++ false :: post) =
      (canonicalFrom 0 pre.length ++ [Event.get pre.length],
       RunResult.exitMetadata pre.length) := by
    show runFiles csrf (pre ++ false :: post) 0 = _
    rw [runFiles_meta_abort csrf pre post 0
      (fun k hk1 hk2 => hcs k (by omega)) hpre]
    simp
  refine ⟨heq, ?_, ?_, ?_⟩
  · rw [heq]
    intro hmem
    rcases List.mem_append.mp hmem with h | h
    · have := canonicalFrom_key pre.length 0 _ h
      rw [evKey] at this
      omega
    · simp at h
  · rw [heq]
    intro hmem
    rcases List.mem_append.mp hmem with h | h
    · have := canonicalFrom_key pre.length 0 _ h
      rw [evKey] at this
      omega
    · simp at h
  · intro j hj
    rw [heq]
    intro hmem
    rcases List.mem_append.mp hmem with h | h
    · have := canonicalFrom_key pre.length 0 _ h
      rw [evKey] at this
      omega
    · simp at h
      omega

theorem claim_c1_metadata_abort_witness :
    runMain true allTrue ([true] ++ false :: [true]) =
      (canonicalFrom 0 1 ++ [Event.get 1], RunResult.exitMetadata 1) :=
  (claim_c1_metadata_abort allTrue [true] [true] (fun k _ => rfl)
    (fun m hm => List.mem_singleton.mp hm)).1

/-- C5: when the CSRF check fails for file `i` (the token is absent
from the fetched page), `can_i_haz_login` calls `exit`, so no form is
built and no POST is issued for file `i` or for any later file, and no
later file is even fetched. -/
theorem claim_c5_csrf_abort (csrf : Nat → Bool) (files : List Bool) (i : Nat)
    (h : csrf i = false) :
    (∀ j, i ≤ j → Event.build j ∉ (runMain true csrf files).1 ∧
      Event.post j ∉ (runMain true csrf files).1) ∧
    ∀ j, i < j → Event.get j ∉ (runMain true csrf files).1 := by
  have hm : (runMain true csrf files).1 = (runFiles csrf files 0).1 := rfl
  constructor
  · intro j hij
    constructor
    · intro hmem
      rw [hm] at hmem
      have := runFiles_mem_csrf csrf files 0 j (Or.inl hmem) i (Nat.zero_le i) hij
      rw [h] at this
      exact absurd this (by simp)
    · intro hmem
      rw [hm] at hmem
      have := runFiles_mem_csrf csrf files 0 j (Or.inr hmem) i (Nat.zero_le i) hij
      rw [h] at this
      exact absurd this (by simp)
  · intro j hij hmem
    rw [hm] at hmem
    have := runFiles_get_csrf csrf files 0 j hmem i (Nat.zero_le i) hij
    rw [h] at this
    exact absurd this (by simp)

theorem claim_c5_csrf_abort_witness :
    csrfFailAt1 1 = false ∧
    Event.post 1 ∉ (runMain true csrfFailAt1 [true, true, true]).1 ∧
    Event.get 2 ∉ (runMain true csrfFailAt1 [true, true, true]).1 :=
  ⟨by decide,
   ((claim_c5_csrf_abort csrfFailAt1 [true, true, true] 1 (by decide)).1 1
     (le_refl 1)).2,
   (claim_c5_csrf_abort csrfFailAt1 [true, true, true] 1 (by decide)).2 2
     (by decide)⟩

/-- C6: when loading the cookie jar fails, `cookies.load()` raises
before the loop starts, so the run performs no network operation at
all: its trace is empty. -/
theorem claim_c6_cookie_failure (cookieOk : Bool) (csrf : Nat → Bool)
    (files : List Bool) (h : cookieOk = false) :
    runMain cookieOk csrf files = ([], RunResult.cookieError) ∧
    (runMain cookieOk csrf files).1.length = 0 := by
  subst h
  exact ⟨rfl, rfl⟩

theorem claim_c6_cookie_failure_witness :
    runMain false allTrue [true, true] = ([], RunResult.cookieError) :=
  (claim_c6_cookie_failure false allTrue [true, true] rfl).1

/-- C9: the trace of any run is strictly increasing in the per-file
event order (GET, then form build, then POST of file 0, then of file 1,
and so on), so files are processed strictly sequentially, every
operation of an earlier file precedes every operation of a later file,
and each POST is preceded by that same file's GET; moreover a POST for
file `i` happens only if the freshly fetched page for file `i` passed
the CSRF check. -/
theorem claim_c9_sequential (cookieOk : Bool) (csrf : Nat → Bool)
    (files : List Bool) :
    List.Pairwise (fun a b => evKey a < evKey b) (runMain cookieOk csrf files).1 ∧
    ∀ i, Event.post i ∈ (runMain cookieOk csrf files).1 →
      Event.get i ∈ (runMain cookieOk csrf files).1 ∧ csrf i = true := by
  by_cases hc : cookieOk = true
  · subst hc
    refine ⟨runFiles_pairwise csrf files 0, ?_⟩
    intro i hi
    exact ⟨runFiles_post_get csrf files 0 i hi,
      runFiles_mem_csrf csrf files 0 i (Or.inr hi) i (Nat.zero_le i) (le_refl i)⟩
  · have hf : cookieOk = false := by
      cases cookieOk
      · rfl
      · exact absurd rfl hc
    subst hf
    exact ⟨List.Pairwise.nil, by intro i hi; simp [runMain] at hi⟩

theorem claim_c9_sequential_witness :
    Event.post 0 ∈ (runMain true allTrue [true]).1 ∧
    Event.get 0 ∈ (runMain true allTrue [true]).1 ∧ allTrue 0 = true :=
  ⟨by decide, ((claim_c9_sequential true allTrue [true]).2 0 (by decide)).1,
   ((claim_c9_sequential true allTrue [true]).2 0 (by decide)).2⟩

/-- C2 is false on the code: `check_csrf_token` returns `bool(match)`,
a Boolean, not the captured value.  Two pages whose token values differ
(ABC123 versus XYZ42) produce the identical return value `true`, so the
operation cannot be returning the exact captured value string; the
regexp search itself does capture the two distinct values. -/
theorem claim_c2_counterexample :
    check_csrf_token csrfPageA = check_csrf_token csrfPageB ∧
    check_csrf_token csrfPageA = true ∧
    csrfSearchAux csrfPageA = some ['A', 'B', 'C', '1', '2', '3'] ∧
    csrfSearchAux csrfPageB = some ['X', 'Y', 'Z', '4', '2'] ∧
    (['A', 'B', 'C', '1', '2', '3'] : List Char) ≠ ['X', 'Y', 'Z', '4', '2'] := by
  refine ⟨by decide, by decide, by decide, by decide, by decide⟩

/-- C2 amended: the underlying regexp search captures the exact value
of the first single-quoted csrftoken attribute with a non-empty value,
but `check_csrf_token` returns only the Boolean presence of such a
match: `true` for a page containing the attribute (the captured value
is discarded), `false` for a page without it, which the caller treats
as a failed login. -/
theorem claim_c2_boolean_check (page : List Char) :
    check_csrf_token page = (csrfSearchAux page).isSome ∧
    csrfSearchAux csrfPageFirst = some ['A', 'B', 'C', '1', '2', '3'] ∧
    check_csrf_token csrfPageFirst = true ∧
    check_csrf_token csrfPageNone = false :=
  ⟨rfl, by decide, by decide, by decide⟩

/-- C3 is false on the code: the field dictionary built by
`form_fields` contains exactly eight fields and `csrftoken` is not one
of them — the token is checked for presence on the fetched page but
never echoed in the POST. -/
theorem claim_c3_counterexample :
    (form_fields ['h', 'i'] ['n'] ['d']).map Prod.fst =
      ["name", "description", "public", "type", "words", "info", "url",
       "submit"] ∧
    ((form_fields ['h', 'i'] ['n'] ['d']).map Prod.fst).contains "csrftoken" =
      false := by
  refine ⟨by decide, by decide⟩

/-- C3 amended: for every input, the multipart form data contains
exactly the fields name, description, public, type, words, info, url
and submit, in that order and with no csrftoken field; name and
description are passed through verbatim from the metadata, info and
url are sent empty, and words carries the terminator-adjusted
content. -/
theorem claim_c3_form_fields (content nameV descV : List Char) :
    (form_fields content nameV descV).map Prod.fst =
      ["name", "description", "public", "type", "words", "info", "url",
       "submit"] ∧
    ((form_fields content nameV descV).map Prod.fst).contains "csrftoken" =
      false ∧
    List.lookup "name" (form_fields content nameV descV) = some nameV ∧
    List.lookup "description" (form_fields content nameV descV) = some descV ∧
    List.lookup "info" (form_fields content nameV descV) = some [] ∧
    List.lookup "url" (form_fields content nameV descV) = some [] ∧
    List.lookup "words" (form_fields content nameV descV) =
      some (prepare_as_text content) :=
  ⟨rfl, rfl, rfl, rfl, rfl, rfl, rfl⟩

/-- C8: the classification in `upload_dictionary` reports a failure
with the captured inner text whenever the error regexp matches the
body, and a creation carrying the response url when it does not; on
the body fragment class=error>some text</div> the captured message is
exactly the text "some text". -/
theorem claim_c8_classify (body : List Char) (url : String) :
    (∀ m, errSearchAux body = some m →
      classify_response body url = UploadOutcome.Failed m) ∧
    (errSearchAux body = none →
      classify_response body url = UploadOutcome.Created url) ∧
    errSearchAux errBody = some "some text".toList ∧
    classify_response errBody "u" = UploadOutcome.Failed ("some text".toList) ∧
    errSearchAux okBody = none ∧
    classify_response okBody "u2" = UploadOutcome.Created "u2" := by
  refine ⟨?_, ?_, by decide, by decide, by decide, by decide⟩
  · intro m hm
    rw [classify_response, hm]
  · intro hn
    rw [classify_response, hn]

theorem claim_c8_classify_witness :
    errSearchAux okBody = none ∧
    classify_response okBody "ok" = UploadOutcome.Created "ok" :=
  ⟨by decide, (claim_c8_classify okBody "ok").2.1 (by decide)⟩

-- Facts about `isPre`, `stripMatch` and the substitution scan.

theorem isPre_iff (xs : List Char) :
    ∀ ys, isPre xs ys = true ↔ ∃ t, ys = xs ++ t := by
  induction xs with
  | nil =>
    intro ys
    constructor
    · intro _; exact ⟨ys, rfl⟩
    · intro _; rfl
  | cons a as2 ih =>
    intro ys
    cases ys with
    | nil =>
      constructor
      · intro h; simp [isPre] at h
      · rintro ⟨t, ht⟩; simp at ht
    | cons b bs2 =>
      rw [isPre]
      constructor
      · intro h
        rw [Bool.and_eq_true] at h
        have hab : a = b := by
          have := h.1
          simp at this
          exact this
        obtain ⟨t, ht⟩ := (ih bs2).mp h.2
        refine ⟨t, ?_⟩
        rw [List.cons_append, ← hab, ht]
      · rintro ⟨t, ht⟩
        rw [List.cons_append] at ht
        injection ht with h1 h2
        rw [Bool.and_eq_true]
        constructor
        · simp [h1]
        · exact (ih bs2).mpr ⟨t, h2⟩

theorem stripMatch_isPre (l : List Char) (n : Nat)
    (h : stripMatch l = some n) : isPre litFN l = true := by
  by_cases h1 : isPre litFN l
  · exact h1
  · rw [stripMatch, if_neg h1] at h
    exact absurd h (by simp)

theorem stripMatch_bound (l : List Char) (n : Nat)
    (h : stripMatch l = some n) : 1 ≤ n ∧ n ≤ l.length := by
  have h1 : isPre litFN l = true := stripMatch_isPre l n h
  rw [stripMatch, if_pos h1] at h
  by_cases h2 : 0 < ((l.drop litFN.length).takeWhile isLowerAZ).length
  · rw [if_pos h2] at h
    by_cases h3 : isPre ['"']
        ((l.drop litFN.length).drop
          ((l.drop litFN.length).takeWhile isLowerAZ).length)
    · rw [if_pos h3] at h
      injection h with hn
      obtain ⟨t0, ht0⟩ := (isPre_iff ['"'] _).mp h3
      have hlen0 : ((l.drop litFN.length).drop
          ((l.drop litFN.length).takeWhile isLowerAZ).length).length =
          t0.length + 1 := by
        rw [ht0]
        simp
      rw [List.length_drop, List.length_drop] at hlen0
      obtain ⟨t1, ht1⟩ := (isPre_iff litFN l).mp h1
      have hlenl : litFN.length ≤ l.length := by
        rw [ht1]
        simp
      omega
    · rw [if_neg h3] at h
      exact absurd h (by simp)
  · rw [if_neg h2] at h
    exact absurd h (by simp)

theorem stripMatch_cr (t : List Char) : stripMatch ('\r' :: t) = none := by
  have h : isPre litFN ('\r' :: t) = false := by
    rw [show litFN = 'f' :: ['i', 'l', 'e', 'n', 'a', 'm', 'e', '=', '"'] from rfl]
    rw [isPre]
    simp
  rw [stripMatch, if_neg (by simp [h])]

theorem stripGo_nil : ∀ fuel, stripGo fuel ([] : List Char) = [] := by
  intro fuel
  cases fuel <;> rfl

theorem stripGo_head_nomatch (c : Char) (r : List Char)
    (hm : stripMatch (c :: r) = none) :
    ∀ fuel, (stripGo fuel (c :: r)).head? = some c := by
  intro fuel
  cases fuel with
  | zero => rfl
  | succ f =>
    simp only [stripGo, hm]
    rfl

theorem GoodP_suffix {l u : List Char} (h : GoodP l) (hu : u <:+ l) :
    GoodP u :=
  fun v hv => h v (hv.trans hu)

theorem occursIn_nil (pat : List Char) (hne : pat ≠ []) :
    ¬ occursIn pat [] := by
  rintro ⟨s, t, hst⟩
  have h1 := (List.append_eq_nil.mp hst.symm).1
  exact hne (List.append_eq_nil.mp h1).2

theorem goodBody_GoodP {l : List Char} (h : goodBody l = true) : GoodP l := by
  intro u hu
  rw [goodBody, List.all_eq_true] at h
  exact h u ((List.mem_tails u l).mpr hu)

theorem stripGo_pre :
    ∀ (fuel : Nat) (P l : List Char), P ≠ [] → '\r' ∉ P →
      l.length ≤ fuel → GoodP l → P <+: stripGo fuel l → P <+: l := by
  intro fuel
  induction fuel with
  | zero =>
    intro P l _ _ _ _ h
    exact h
  | succ fuel ih =>
    intro P l hPne hPcr hlen hg h
    cases l with
    | nil =>
      rw [stripGo_nil] at h
      obtain ⟨t, ht⟩ := h
      exact absurd (List.append_eq_nil.mp ht).1 hPne
    | cons c rest =>
      cases hm : stripMatch (c :: rest) with
      | some n =>
        simp only [stripGo, hm] at h
        have hgs : goodSuffix (c :: rest) = true := hg _ ⟨[], rfl⟩
        have hpre : isPre litFN (c :: rest) = true := stripMatch_isPre _ _ hm
        rw [goodSuffix, if_pos hpre] at hgs
        simp only [hm] at hgs
        cases hd : (c :: rest).drop n with
        | nil =>
          rw [hd] at h
          rw [stripGo_nil] at h
          obtain ⟨t, ht⟩ := h
          exact absurd (List.append_eq_nil.mp ht).1 hPne
        | cons d rest2 =>
          simp only [hd] at hgs
          have hdr : d = '\r' := by simpa using hgs
          subst hdr
          rw [hd] at h
          have hh := stripGo_head_nomatch '\r' rest2 (stripMatch_cr rest2) fuel
          obtain ⟨t, ht⟩ := h
          cases P with
          | nil => exact absurd rfl hPne
          | cons p0 P2 =>
            have hp0 : (stripGo fuel ('\r' :: rest2)).head? = some p0 := by
              rw [← ht]
              rfl
            rw [hh] at hp0
            have : p0 = '\r' := by
              injection hp0 with hx
              exact hx.symm
            rw [this] at hPcr
            exact absurd (List.mem_cons_self _ _) hPcr
      | none =>
        simp only [stripGo, hm] at h
        cases P with
        | nil => exact absurd rfl hPne
        | cons p0 P2 =>
          obtain ⟨t, ht⟩ := h
          rw [List.cons_append] at ht
          injection ht with h1 h2
          by_cases hP2 : P2 = []
          · subst hP2
            subst h1
            exact ⟨rest, rfl⟩
          · have hg2 : GoodP rest := GoodP_suffix hg ⟨[c], rfl⟩
            have hlen2 : rest.length ≤ fuel := by
              simp at hlen
              omega
            have hcr2 : '\r' ∉ P2 := fun hx => hPcr (List.mem_cons_of_mem p0 hx)
            obtain ⟨t2, ht2⟩ := ih P2 rest hP2 hcr2 hlen2 hg2 ⟨t, h2⟩
            subst h1
            exact ⟨t2, by rw [List.cons_append, ht2]⟩

theorem stripGo_no_occur :
    ∀ (fuel : Nat) (l : List Char), l.length ≤ fuel → GoodP l →
      ¬ occursIn litFN (stripGo fuel l) := by
  intro fuel
  induction fuel with
  | zero =>
    intro l hlen _ h
    have hnil : l = [] := List.length_eq_zero.mp (Nat.le_zero.mp hlen)
    subst hnil
    rw [stripGo_nil] at h
    exact occursIn_nil litFN (by decide) h
  | succ fuel ih =>
    intro l hlen hg h
    cases l with
    | nil =>
      rw [stripGo_nil] at h
      exact occursIn_nil litFN (by decide) h
    | cons c rest =>
      cases hm : stripMatch (c :: rest) with
      | some n =>
        simp only [stripGo, hm] at h
        have hb := stripMatch_bound _ _ hm
        refine ih ((c :: rest).drop n) ?_ (GoodP_suffix hg (List.drop_suffix n _)) h
        rw [List.length_drop]
        simp at hlen ⊢
        omega
      | none =>
        simp only [stripGo, hm] at h
        obtain ⟨s, t, hst⟩ := h
        cases s with
        | nil =>
          simp only [List.nil_append] at hst
          have hpreGo : litFN <+: stripGo (fuel + 1) (c :: rest) := by
            simp only [stripGo, hm]
            exact ⟨t, hst.symm⟩
          have hpre2 : litFN <+: (c :: rest) :=
            stripGo_pre (fuel + 1) litFN (c :: rest) (by decide) (by decide)
              hlen hg hpreGo
          have hgs : goodSuffix (c :: rest) = true := hg _ ⟨[], rfl⟩
          have hipre : isPre litFN (c :: rest) = true := by
            rw [isPre_iff]
            obtain ⟨t2, ht2⟩ := hpre2
            exact ⟨t2, ht2.symm⟩
          rw [goodSuffix, if_pos hipre] at hgs
          simp only [hm] at hgs
          exact Bool.false_ne_true hgs
        | cons s0 s2 =>
          rw [List.cons_append, List.cons_append] at hst
          injection hst with h1 h2
          have hg2 : GoodP rest := GoodP_suffix hg ⟨[c], rfl⟩
          have hlen2 : rest.length ≤ fuel := by
            simp at hlen
            omega
          exact ih rest hlen2 hg2 ⟨s2, t, h2⟩

/-- C7: on any multipart body in which every occurrence of the
filename literal begins an encoder-emitted attribute (the literal, a
non-empty lowercase field name, a closing quote, then a carriage
return or the end of the body — the shape the multipart encoder
produces for plain text fields), `strip_filename_headers` removes
every filename attribute, leaving a body with no occurrence of the
filename literal at all, and sets the content length to the byte
length of the stripped body. -/
theorem claim_c7_strip_filename (p : PreparedRequest)
    (h : goodBody p.body = true) :
    ¬ occursIn litFN (strip_filename_headers p).body ∧
    (strip_filename_headers p).contentLength =
      utf8Len (strip_filename_headers p).body := by
  refine ⟨?_, rfl⟩
  show ¬ occursIn litFN (stripFN p.body)
  exact stripGo_no_occur p.body.length p.body (le_refl _) (goodBody_GoodP h)

theorem claim_c7_strip_filename_witness :
    goodBody c7body = true ∧
    (strip_filename_headers c7req).contentLength =
      utf8Len (strip_filename_headers c7req).body :=
  ⟨by decide, (claim_c7_strip_filename c7req (by decide)).2⟩

end BerezinDicts
